import Mathlib

/-
  Verification development for the papdieo wallpaper renderer.

  Shallow embedding of the picker (src/picker.rs), the frame pool,
  image fitter, output selection, layer-surface event handling and the
  video fallback driver (src/wallpaper.rs).  Strings are modelled as
  lists of characters; filesystem and randomness effects are made
  explicit parameters.
-/

namespace Papdieo

/-- Paths and file contents are modelled as lists of characters
(`PathBuf::to_string_lossy` is the identity on valid UTF-8). -/
abbrev Str := List Char

/-- Model of Rust `str::trim`: drop whitespace from both ends.
(Rust trims Unicode whitespace; the model covers the ASCII subset,
which is all that the repository ever produces.) -/
def trim (s : Str) : Str :=
  ((s.dropWhile Char.isWhitespace).reverse.dropWhile Char.isWhitespace).reverse

/-- ASCII lower-casing of one character, as `u8::to_ascii_lowercase`. -/
def asciiLowerChar (c : Char) : Char :=
  if 'A' ≤ c && c ≤ 'Z' then Char.ofNat (c.toNat + 32) else c

/-- ASCII lower-casing of a string, as `str::to_ascii_lowercase`. -/
def asciiLower (s : Str) : Str := s.map asciiLowerChar

/-- Model of `str::eq_ignore_ascii_case`. -/
def eqIgnoreAsciiCase (a b : Str) : Bool := asciiLower a == asciiLower b

/-- Holds when the first list is an initial run of the second. -/
def leadsList : Str → Str → Bool
  | [], _ => true
  | _ :: _, [] => false
  | a :: as1, b :: bs => a == b && leadsList as1 bs

/-- Model of Rust `str::contains` (contiguous substring search). -/
def containsSub (hay needle : Str) : Bool :=
  (List.range (hay.length + 1)).any (fun i => leadsList needle (hay.drop i))

/-! ## Picker (src/picker.rs)

`list_wallpapers` reads a directory, keeps supported media files and
sorts the paths; its output is a duplicate-free sorted list.  The picker
models below take that candidate list as an explicit argument, the
persisted state file content as an `Option Str`, and the outcomes of
`rand::seq::SliceRandom::choose` as arbitrary natural-number indices
(every index designates the list element at `k % length`, so every
possible outcome of the uniform choice is covered). -/

/-- Extension-based media filter of `is_supported_media`, taking the
already-extracted lower-cased extension. -/
def is_supported_media_ext (ext : Str) : Bool :=
  ext == "jpg".toList || ext == "jpeg".toList || ext == "png".toList ||
  ext == "webp".toList || ext == "mp4".toList || ext == "mkv".toList ||
  ext == "webm".toList || ext == "mov".toList || ext == "avi".toList

/-- Model of `SliceRandom::choose`: `None` on an empty list, otherwise
an arbitrary element, designated by the index `k % length`. -/
def chooseIdx (l : List Str) (k : Nat) : Option Str :=
  l[k % l.length]?

/-- Model of `pick_random_wallpaper` (src/picker.rs lines 32-58).
`images` is the sorted listing produced by `list_wallpapers`,
`stateFile` the readable content of the persisted state file (`none`
when the read fails), and `k1`, `k2` the outcomes of the two random
choices.  Returns the selected path (`none` only on an empty listing,
where `list_wallpapers` errors first).  The final re-pick keeps the
first selection when the alternatives list is empty, exactly as the
source `if let Some(next) = alternatives.choose(..)`. -/
def pick_random_wallpaper (images : List Str) (stateFile : Option Str)
    (k1 k2 : Nat) : Option Str :=
  (chooseIdx images k1).map (fun sel0 =>
    if 1 < images.length then
      match stateFile with
      | some lastPath =>
        let last := trim lastPath
        if sel0 = last then
          (chooseIdx (images.filter (fun p => decide (p ≠ last))) k2).getD sel0
        else sel0
      | none => sel0
    else sel0)

/-- Model of `pick_next_wallpaper` (src/picker.rs lines 60-76): position
of the trimmed persisted path in the sorted listing, successor modulo
the length, defaulting to index 0. -/
def pick_next_wallpaper (images : List Str) (stateFile : Option Str) :
    Option Str :=
  match images with
  | [] => none
  | _ :: _ =>
    let nextIndex :=
      match stateFile with
      | some lastPath =>
        match images.findIdx? (fun p => p == trim lastPath) with
        | some i => (i + 1) % images.length
        | none => 0
      | none => 0
    images[nextIndex]?

/-- Iterates `pick_next_wallpaper`, threading the persisted state: each
successful pick is written back to the state file verbatim. -/
def pickNextSeq (images : List Str) : Option Str → Nat → List Str
  | _, 0 => []
  | st, k + 1 =>
    match pick_next_wallpaper images st with
    | none => []
    | some p => p :: pickNextSeq images (some p) k

/-! ### Picker lemmas -/

theorem chooseIdx_some (l : List Str) (hne : l ≠ []) (k : Nat) :
    ∃ x, chooseIdx l k = some x ∧ x ∈ l := by
  have hlen : 0 < l.length := List.length_pos.mpr hne
  have hk : k % l.length < l.length := Nat.mod_lt _ hlen
  exact ⟨l.get ⟨k % l.length, hk⟩,
    by simp [chooseIdx, List.getElem?_eq_getElem hk],
    List.getElem_mem hk⟩

theorem chooseIdx_mem {l : List Str} {k : Nat} {x : Str}
    (h : chooseIdx l k = some x) : x ∈ l := by
  unfold chooseIdx at h
  exact List.getElem?_mem h

/-- C6 helper: a listing with at least two distinct entries keeps a
nonempty alternatives list after filtering out one value. -/
theorem filter_ne_nonempty (images : List Str) (v : Str)
    (h2 : 2 ≤ images.length) (hnd : images.Nodup) :
    images.filter (fun p => decide (p ≠ v)) ≠ [] := by
  intro hf
  rw [List.filter_eq_nil_iff] at hf
  rcases images with _ | ⟨a, _ | ⟨b, t⟩⟩
  · simp at h2
  · simp at h2
  · have ha := hf a (by simp)
    have hb := hf b (by simp)
    simp at ha hb
    rcases List.nodup_cons.mp hnd with ⟨hab, -⟩
    exact hab (by simp [ha, hb])

/-- C6 (confirmed): with at least two candidates and a persisted path
(the trimmed state-file line) equal to one of them, every outcome of
the random choices yields a path different from the persisted one. -/
theorem pick_random_no_adjacent_repeat (images : List Str) (content : Str)
    (h2 : 2 ≤ images.length) (hnd : images.Nodup)
    (hmem : trim content ∈ images) (k1 k2 : Nat) (sel : Str)
    (hpick : pick_random_wallpaper images (some content) k1 k2 = some sel) :
    sel ≠ trim content := by
  have hne : images ≠ [] := by
    intro h; subst h; simp at h2
  simp only [pick_random_wallpaper, Option.map_eq_some'] at hpick
  obtain ⟨sel0, hc0, hf⟩ := hpick
  rw [if_pos (by omega : 1 < images.length)] at hf
  by_cases hsel : sel0 = trim content
  · rw [if_pos hsel] at hf
    have haltne := filter_ne_nonempty images (trim content) h2 hnd
    obtain ⟨nxt, hcn, hmemn⟩ :=
      chooseIdx_some (images.filter (fun p => decide (p ≠ trim content))) haltne k2
    rw [hcn] at hf
    simp only [Option.getD_some] at hf
    have := (List.mem_filter.mp hmemn).2
    simp only [decide_eq_true_eq] at this
    simpa [← hf] using this
  · rw [if_neg hsel] at hf
    simpa [← hf] using hsel

theorem pick_random_no_adjacent_repeat_witness :
    pick_random_wallpaper [['a'], ['b']] (some ['a']) 0 0 = some ['b'] ∧
    (['b'] : Str) ≠ trim ['a'] := by
  refine ⟨by decide, ?_⟩
  exact pick_random_no_adjacent_repeat [['a'], ['b']] ['a']
    (by decide) (by decide) (by decide) 0 0 ['b'] (by decide)

/-- Position of an element of a duplicate-free list, with an arbitrary
start offset for `findIdx?`. -/
theorem findIdx?_get_of_nodup (l : List Str) (hnd : l.Nodup) :
    ∀ (i : Nat) (h : i < l.length) (s : Nat),
      l.findIdx? (fun p => p == l.get ⟨i, h⟩) s = some (s + i) := by
  induction l with
  | nil => intro i h s; simp at h
  | cons a t ih =>
    intro i h s
    rcases List.nodup_cons.mp hnd with ⟨hat, hndt⟩
    cases i with
    | zero => simp [List.findIdx?_cons]
    | succ i =>
      have hit : i < t.length := by simpa using h
      have hget : (a :: t).get ⟨i + 1, h⟩ = t.get ⟨i, hit⟩ := rfl
      have hne : (a == t.get ⟨i, hit⟩) = false := by
        simp only [beq_eq_false_iff_ne]
        intro he
        exact hat (he ▸ List.get_mem t i hit)
      rw [List.findIdx?_cons, hget, hne]
      simp only [if_false, Bool.false_eq_true]
      rw [ih hndt i hit (s + 1)]
      congr 1
      omega

/-- Unfolding equation of `pick_next_wallpaper` on a nonempty listing
with a persisted state whose position has been computed. -/
theorem pick_next_eq_of_findIdx (images : List Str) (hne : images ≠ [])
    (lastPath : Str) (j : Nat)
    (hfind : images.findIdx? (fun p => p == trim lastPath) = some j) :
    pick_next_wallpaper images (some lastPath) =
      images[(j + 1) % images.length]? := by
  rcases images with _ | ⟨a, t⟩
  · exact absurd rfl hne
  · simp only [pick_next_wallpaper, hfind]

/-- Unfolding equation of `pick_next_wallpaper` when no candidate
matches the trimmed persisted path. -/
theorem pick_next_eq_of_findIdx_none (images : List Str) (hne : images ≠ [])
    (lastPath : Str)
    (hfind : images.findIdx? (fun p => p == trim lastPath) = none) :
    pick_next_wallpaper images (some lastPath) = images[0]? := by
  rcases images with _ | ⟨a, t⟩
  · exact absurd rfl hne
  · simp only [pick_next_wallpaper, hfind]

/-- Unfolding equation of `pick_next_wallpaper` on empty persisted
state. -/
theorem pick_next_eq_none_state (images : List Str) (hne : images ≠ []) :
    pick_next_wallpaper images none = images[0]? := by
  rcases images with _ | ⟨a, t⟩
  · exact absurd rfl hne
  · simp only [pick_next_wallpaper]

/-- Unfolding equation of one successful `pickNextSeq` step. -/
theorem pickNextSeq_succ_some (images : List Str) (st : Option Str)
    (k : Nat) (p : Str) (h : pick_next_wallpaper images st = some p) :
    pickNextSeq images st (k + 1) = p :: pickNextSeq images (some p) k := by
  rw [pickNextSeq, h]

/-- C7 helper: one `next` step from persisted state `c_i` yields
`c_((i+1) mod n)`, provided paths are unchanged by trimming. -/
theorem pick_next_step (images : List Str) (hnd : images.Nodup)
    (htrim : ∀ c ∈ images, trim c = c) (i : Nat) (h : i < images.length) :
    pick_next_wallpaper images (some (images.get ⟨i, h⟩)) =
      some (images.get ⟨(i + 1) % images.length,
        Nat.mod_lt _ (by omega)⟩) := by
  have hne : images ≠ [] := by
    intro he; rw [he] at h; simp at h
  have htr : trim (images.get ⟨i, h⟩) = images.get ⟨i, h⟩ :=
    htrim _ (List.get_mem images i h)
  have hfind : images.findIdx? (fun p => p == trim (images.get ⟨i, h⟩)) =
      some i := by
    rw [htr]
    simpa using findIdx?_get_of_nodup images hnd i h 0
  rw [pick_next_eq_of_findIdx images hne _ i hfind]
  exact List.getElem?_eq_getElem (Nat.mod_lt (i + 1) (by omega))

/-- C7 helper: the tail of the round-robin tour starting after index
`i`. -/
theorem pickNextSeq_from (images : List Str) (hne : images ≠ [])
    (hnd : images.Nodup) (htrim : ∀ c ∈ images, trim c = c) :
    ∀ (k i : Nat) (h : i < images.length), k = images.length - i →
      pickNextSeq images (some (images.get ⟨i, h⟩)) k =
        images.drop (i + 1) ++
          [images.get ⟨0, List.length_pos.mpr hne⟩] := by
  intro k
  induction k with
  | zero => intro i h hk; omega
  | succ k ih =>
    intro i h hk
    rw [pickNextSeq_succ_some images _ k _ (pick_next_step images hnd htrim i h)]
    by_cases hlast : i + 1 < images.length
    · have hmod : (i + 1) % images.length = i + 1 := Nat.mod_eq_of_lt hlast
      have hrec := ih (i + 1) (by omega) (by omega)
      simp only [hmod] at *
      rw [hrec]
      rw [List.drop_eq_getElem_cons hlast]
      rfl
    · have hieq : i + 1 = images.length := by omega
      have hmod : (i + 1) % images.length = 0 := by
        rw [hieq, Nat.mod_self]
      have hk0 : k = 0 := by omega
      simp only [hmod, hk0, pickNextSeq]
      rw [List.drop_eq_nil_of_le (by omega)]
      rfl

/-- C7 counterexample input: a directory whose path begins with a
space character (for example running with `--dir " w"`).  Its listing
consists of paths that whitespace-trimming alters, so the persisted
state read back through `trim` never matches a candidate. -/
def cexDirA : Str := [' ', 'w', '/', 'a', '.', 'p', 'n', 'g']

/-- Second candidate of the counterexample directory. -/
def cexDirB : Str := [' ', 'w', '/', 'b', '.', 'p', 'n', 'g']

/-- C7 counterexample: on the sorted duplicate-free listing
`[" w/a.png", " w/b.png"]`, three applications starting from empty
state yield `c0, c0, c0` and not the round-robin `c0, c1, c0` the
claim predicts: the persisted path is re-read through `trim`, which
strips the leading space, so it never matches a candidate and the
cursor resets to index 0 each time. -/
theorem pick_next_round_robin_cex :
    pickNextSeq [cexDirA, cexDirB] none 3 = [cexDirA, cexDirA, cexDirA] ∧
    [cexDirA, cexDirA, cexDirA] ≠ [cexDirA, cexDirB, cexDirA] := by
  constructor
  · decide
  · decide

/-- C7 (amended): starting from empty persisted state, `n + 1`
applications of `pick_next_wallpaper` on a duplicate-free candidate
list `c_0, …, c_(n-1)` whose paths are unchanged by whitespace
trimming yield exactly `c_0, c_1, …, c_(n-1), c_0`. -/
theorem pick_next_round_robin (images : List Str) (hne : images ≠ [])
    (hnd : images.Nodup) (htrim : ∀ c ∈ images, trim c = c) :
    pickNextSeq images none (images.length + 1) =
      images ++ [images.head hne] := by
  have hpos : 0 < images.length := List.length_pos.mpr hne
  have hfirst : pick_next_wallpaper images none =
      some (images.get ⟨0, hpos⟩) := by
    rw [pick_next_eq_none_state images hne]
    exact List.getElem?_eq_getElem hpos
  have hhead : images.get ⟨0, hpos⟩ = images.head hne := by
    rcases images with _ | ⟨a, t⟩
    · exact absurd rfl hne
    · rfl
  have hcons : images.head hne :: images.drop 1 = images := by
    rcases images with _ | ⟨a, t⟩
    · exact absurd rfl hne
    · rfl
  rw [pickNextSeq_succ_some images none images.length _ hfirst,
    pickNextSeq_from images hne hnd htrim images.length 0 hpos (by omega),
    hhead, Nat.zero_add, ← List.cons_append, hcons]

theorem pick_next_round_robin_witness :
    pickNextSeq [['a'], ['b']] none 3 = [['a'], ['b']] ++ [['a']] :=
  pick_next_round_robin [['a'], ['b']] (by decide) (by decide)
    (by decide)

/-- C9 (confirmed): with a missing or unreadable state file, or a
persisted path matching no current candidate, `pick_next_wallpaper`
returns the first candidate instead of failing. -/
theorem pick_next_fallback_first (images : List Str) (hne : images ≠ [])
    (content : Str) (hnomem : ∀ c ∈ images, c ≠ trim content) :
    pick_next_wallpaper images none = some (images.head hne) ∧
    pick_next_wallpaper images (some content) = some (images.head hne) := by
  have hpos : 0 < images.length := List.length_pos.mpr hne
  have hget0 : images[0]? = some (images.head hne) := by
    rcases images with _ | ⟨a, t⟩
    · exact absurd rfl hne
    · simp
  have hfind : images.findIdx? (fun p => p == trim content) = none := by
    rw [List.findIdx?_eq_none_iff]
    intro x hx
    simpa using hnomem x hx
  exact ⟨by rw [pick_next_eq_none_state images hne, hget0],
    by rw [pick_next_eq_of_findIdx_none images hne content hfind, hget0]⟩

theorem pick_next_fallback_first_witness :
    pick_next_wallpaper [['a'], ['b']] none = some ['a'] ∧
    pick_next_wallpaper [['a'], ['b']] (some ['z']) = some ['a'] :=
  pick_next_fallback_first [['a'], ['b']] (by decide) ['z'] (by decide)

/-! ## Shared-memory frame pool
(`FrameRenderer`, src/wallpaper.rs lines 407-516)

The memory mapping is modelled as a list of bytes (`List Nat`); the
pool invariant is that its length equals `frame_size`, fixed at
construction as `height * (width * 4)`. -/

/-- The zipped loop body of `write_rgba_image_frame`:
`self.mmap[..rgba.len()].chunks_exact_mut(4).zip(rgba.chunks_exact(4))`
walks destination and source four bytes at a time, stopping as soon as
either has fewer than four bytes left (the destination remainder is
left untouched), and stores `(B, G, R, 255)` for each source
`(R, G, B, A)`. -/
def bgrxWrite (dst src : List Nat) : List Nat :=
  match src, dst with
  | p0 :: p1 :: p2 :: _p3 :: ps, _d0 :: _d1 :: _d2 :: _d3 :: ds =>
      p2 :: p1 :: p0 :: 255 :: bgrxWrite ds ps
  | _, ds => ds

/-- Model of `FrameRenderer::write_rgba_image_frame` (src/wallpaper.rs
lines 503-515): reject inputs longer than `frame_size`, then rewrite
the first `rgba.length` bytes of the mapping through `bgrxWrite`,
leaving the rest of the mapping as it was. -/
def write_rgba_image_frame (frameSize : Nat) (mmap rgba : List Nat) :
    Option (List Nat) :=
  if frameSize < rgba.length then none
  else some (bgrxWrite (mmap.take rgba.length) rgba ++ mmap.drop rgba.length)

/-- The per-pixel byte map stated by the spec: each 4-byte source pixel
`(R, G, B, A)` becomes `(B, G, R, 255)` at the same offset; a trailing
incomplete trailing pixel contributes nothing. -/
def bgrxSpec : List Nat → List Nat
  | p0 :: p1 :: p2 :: _p3 :: ps => p2 :: p1 :: p0 :: 255 :: bgrxSpec ps
  | _ => []

/-! ### Frame pool lemmas -/

theorem bgrxSpec_length_le (m : Nat) : ∀ src : List Nat, src.length ≤ m →
    (bgrxSpec src).length = 4 * (src.length / 4) := by
  induction m with
  | zero =>
    intro src h
    have : src = [] := List.eq_nil_of_length_eq_zero (by omega)
    subst this
    simp [bgrxSpec]
  | succ m ih =>
    intro src h
    rcases src with _ | ⟨p0, _ | ⟨p1, _ | ⟨p2, _ | ⟨p3, ps⟩⟩⟩⟩
    · simp [bgrxSpec]
    · simp [bgrxSpec]
    · simp [bgrxSpec]
    · simp [bgrxSpec]
    · have hps : ps.length ≤ m := by
        simp only [List.length_cons] at h
        omega
      simp only [bgrxSpec, List.length_cons, ih ps hps]
      omega

theorem bgrxSpec_length (src : List Nat) :
    (bgrxSpec src).length = 4 * (src.length / 4) :=
  bgrxSpec_length_le src.length src (Nat.le_refl _)

/-- Workhorse: with destination and source of equal length, the write
loop produces the spec bytes for all complete pixels followed by the
untouched destination remainder. -/
theorem bgrxWrite_eq_spec_append (m : Nat) :
    ∀ dst src : List Nat, src.length ≤ m → dst.length = src.length →
      bgrxWrite dst src =
        bgrxSpec (src.take (4 * (src.length / 4))) ++
          dst.drop (4 * (src.length / 4)) := by
  induction m with
  | zero =>
    intro dst src h hl
    have hs : src = [] := List.eq_nil_of_length_eq_zero (by omega)
    have hd : dst = [] := List.eq_nil_of_length_eq_zero (by omega)
    subst hs; subst hd; rfl
  | succ m ih =>
    intro dst src h hl
    rcases src with _ | ⟨p0, _ | ⟨p1, _ | ⟨p2, _ | ⟨p3, ps⟩⟩⟩⟩
    · have hd : dst = [] := List.eq_nil_of_length_eq_zero (by simpa using hl)
      subst hd
      simp [bgrxWrite, bgrxSpec]
    · simp [bgrxWrite, bgrxSpec]
    · simp [bgrxWrite, bgrxSpec]
    · simp [bgrxWrite, bgrxSpec]
    · rcases dst with _ | ⟨d0, _ | ⟨d1, _ | ⟨d2, _ | ⟨d3, ds⟩⟩⟩⟩
      · simp only [List.length_nil, List.length_cons] at hl
        omega
      · simp only [List.length_nil, List.length_cons] at hl
        omega
      · simp only [List.length_nil, List.length_cons] at hl
        omega
      · simp only [List.length_nil, List.length_cons] at hl
        omega
      · have hps : ps.length ≤ m := by
          simp only [List.length_cons] at h
          omega
        have hq : (ps.length + 1 + 1 + 1 + 1) / 4 = ps.length / 4 + 1 := by
          omega
        have hrec := ih ds ps hps (by
          simp only [List.length_cons] at hl
          omega)
        simp only [bgrxWrite, List.length_cons, hq, hrec]
        have h4 : 4 * (ps.length / 4 + 1) =
            4 * (ps.length / 4) + 1 + 1 + 1 + 1 := by
          omega
        simp only [h4, List.take_succ_cons, List.drop_succ_cons, bgrxSpec,
          List.cons_append]
        rfl

/-- Per-pixel content of the spec byte map. -/
theorem bgrxSpec_pixel (n : Nat) :
    ∀ src : List Nat, src.length ≤ 4 * n → ∀ i, i < src.length / 4 →
      (bgrxSpec src).getD (4 * i) 0 = src.getD (4 * i + 2) 0 ∧
      (bgrxSpec src).getD (4 * i + 1) 0 = src.getD (4 * i + 1) 0 ∧
      (bgrxSpec src).getD (4 * i + 2) 0 = src.getD (4 * i) 0 ∧
      (bgrxSpec src).getD (4 * i + 3) 0 = 255 := by
  induction n with
  | zero =>
    intro src h i hi
    omega
  | succ n ih =>
    intro src h i hi
    rcases src with _ | ⟨p0, _ | ⟨p1, _ | ⟨p2, _ | ⟨p3, ps⟩⟩⟩⟩
    · simp only [List.length_nil] at hi
      omega
    · simp only [List.length_cons, List.length_nil] at hi
      omega
    · simp only [List.length_cons, List.length_nil] at hi
      omega
    · simp only [List.length_cons, List.length_nil] at hi
      omega
    · cases i with
      | zero =>
        simp [bgrxSpec, List.getD_cons_zero, List.getD_cons_succ]
      | succ i =>
        have hps : ps.length ≤ 4 * n := by
          simp only [List.length_cons] at h
          omega
        have hips : i < ps.length / 4 := by
          simp only [List.length_cons] at hi
          omega
        have hrec := ih ps hps i hips
        have e0 : 4 * (i + 1) = 4 * i + 1 + 1 + 1 + 1 := by omega
        have e1 : 4 * (i + 1) + 1 = 4 * i + 1 + 1 + 1 + 1 + 1 := by omega
        have e2 : 4 * (i + 1) + 2 = 4 * i + 2 + 1 + 1 + 1 + 1 := by omega
        have e3 : 4 * (i + 1) + 3 = 4 * i + 3 + 1 + 1 + 1 + 1 := by omega
        simp only [bgrxSpec, e0, e1, e2, e3, List.getD_cons_succ]
        exact hrec

/-- C8 (confirmed): for a multiple-of-4 input no longer than the frame,
`write_rgba_image_frame` swaps each pixel to `(B, G, R, 255)` at the
same offset, leaves the rest of the mapping unchanged, and is
idempotent: writing the same bytes onto the result reproduces it
byte-identically, with byte 3 of every written pixel equal to 255. -/
theorem write_rgba_props (frameSize : Nat) (mmap rgba : List Nat)
    (hlen : mmap.length = frameSize) (hle : rgba.length ≤ frameSize)
    (hmul : rgba.length % 4 = 0) :
    write_rgba_image_frame frameSize mmap rgba =
      some (bgrxSpec rgba ++ mmap.drop rgba.length) ∧
    write_rgba_image_frame frameSize
        (bgrxSpec rgba ++ mmap.drop rgba.length) rgba =
      some (bgrxSpec rgba ++ mmap.drop rgba.length) ∧
    (∀ i, i < rgba.length / 4 →
      (bgrxSpec rgba ++ mmap.drop rgba.length).getD (4 * i) 0 =
        rgba.getD (4 * i + 2) 0 ∧
      (bgrxSpec rgba ++ mmap.drop rgba.length).getD (4 * i + 1) 0 =
        rgba.getD (4 * i + 1) 0 ∧
      (bgrxSpec rgba ++ mmap.drop rgba.length).getD (4 * i + 2) 0 =
        rgba.getD (4 * i) 0 ∧
      (bgrxSpec rgba ++ mmap.drop rgba.length).getD (4 * i + 3) 0 = 255) := by
  have hq : 4 * (rgba.length / 4) = rgba.length := by omega
  have hspec_len : (bgrxSpec rgba).length = rgba.length := by
    rw [bgrxSpec_length, hq]
  have htake_len : (mmap.take rgba.length).length = rgba.length := by
    rw [List.length_take]; omega
  have hwrite : bgrxWrite (mmap.take rgba.length) rgba = bgrxSpec rgba := by
    rw [bgrxWrite_eq_spec_append rgba.length (mmap.take rgba.length) rgba
        (Nat.le_refl _) htake_len, hq, List.take_length,
      List.drop_eq_nil_of_le (le_of_eq htake_len), List.append_nil]
  refine ⟨?_, ?_, ?_⟩
  · rw [write_rgba_image_frame, if_neg (by omega), hwrite]
  · have hout_len : (bgrxSpec rgba ++ mmap.drop rgba.length).length =
        frameSize := by
      simp only [List.length_append, hspec_len, List.length_drop]
      omega
    have htake_out : (bgrxSpec rgba ++ mmap.drop rgba.length).take
        rgba.length = bgrxSpec rgba := List.take_left' hspec_len
    have hdrop_out : (bgrxSpec rgba ++ mmap.drop rgba.length).drop
        rgba.length = mmap.drop rgba.length := List.drop_left' hspec_len
    have hwrite2 : bgrxWrite (bgrxSpec rgba) rgba = bgrxSpec rgba := by
      rw [bgrxWrite_eq_spec_append rgba.length (bgrxSpec rgba) rgba
          (Nat.le_refl _) hspec_len, hq, List.take_length,
        List.drop_eq_nil_of_le (le_of_eq hspec_len), List.append_nil]
    rw [write_rgba_image_frame, if_neg (by omega), htake_out, hdrop_out,
      hwrite2]
  · intro i hi
    have hpix := bgrxSpec_pixel rgba.length rgba (by omega) i hi
    have hin : ∀ c, c < 4 → (bgrxSpec rgba ++ mmap.drop rgba.length).getD
        (4 * i + c) 0 = (bgrxSpec rgba).getD (4 * i + c) 0 := by
      intro c hc
      rw [List.getD_eq_getElem?_getD, List.getD_eq_getElem?_getD,
        List.getElem?_append]
      rw [if_pos (by omega : 4 * i + c < (bgrxSpec rgba).length)]
    have h0 := hin 0 (by omega)
    have h1 := hin 1 (by omega)
    have h2 := hin 2 (by omega)
    have h3 := hin 3 (by omega)
    simp only [Nat.add_zero] at h0
    rw [h0, h1, h2, h3]
    exact hpix

theorem write_rgba_props_witness :
    write_rgba_image_frame 8 [9, 9, 9, 9, 7, 7, 7, 7] [1, 2, 3, 4] =
      some (bgrxSpec [1, 2, 3, 4] ++
        [9, 9, 9, 9, 7, 7, 7, 7].drop 4) ∧ True := by
  refine ⟨(write_rgba_props 8 [9, 9, 9, 9, 7, 7, 7, 7] [1, 2, 3, 4]
    (by decide) (by decide) (by decide)).1, trivial⟩

/-- C10 (confirmed): a successful image-frame write modifies only the
first `4 * (len / 4)` bytes of the mapping; every byte at an offset of
at least `4 * (len / 4)` keeps its previous value. -/
theorem write_rgba_tail_preserved (frameSize : Nat) (mmap rgba : List Nat)
    (hlen : mmap.length = frameSize) (hle : rgba.length ≤ frameSize) :
    ∃ out, write_rgba_image_frame frameSize mmap rgba = some out ∧
      ∀ i, 4 * (rgba.length / 4) ≤ i → out.getD i 0 = mmap.getD i 0 := by
  have htake_len : (mmap.take rgba.length).length = rgba.length := by
    rw [List.length_take]; omega
  refine ⟨_, by rw [write_rgba_image_frame, if_neg (by omega)], ?_⟩
  intro i hi
  rw [bgrxWrite_eq_spec_append rgba.length (mmap.take rgba.length) rgba
      (Nat.le_refl _) htake_len, List.append_assoc]
  have hspec_len : (bgrxSpec (rgba.take (4 * (rgba.length / 4)))).length =
      4 * (rgba.length / 4) := by
    rw [bgrxSpec_length, List.length_take]
    have : 4 * (rgba.length / 4) ⊓ rgba.length = 4 * (rgba.length / 4) := by
      simp only [inf_eq_left]; omega
    rw [this]
    omega
  rw [List.getD_eq_getElem?_getD, List.getD_eq_getElem?_getD,
    List.getElem?_append_right (by omega), hspec_len]
  rw [List.getElem?_append]
  rcases lt_or_ge (i - 4 * (rgba.length / 4))
      ((mmap.take rgba.length).drop (4 * (rgba.length / 4))).length with hc | hc
  · rw [if_pos hc, List.getElem?_drop, List.getElem?_take]
    have hilen : i < rgba.length := by
      rw [List.length_drop, htake_len] at hc
      omega
    rw [if_pos (by omega)]
    have : 4 * (rgba.length / 4) + (i - 4 * (rgba.length / 4)) = i := by
      omega
    rw [this]
  · rw [if_neg (by omega), List.length_drop, htake_len, List.getElem?_drop]
    have hilen : rgba.length ≤ i := by
      rw [List.length_drop, htake_len] at hc
      omega
    have : rgba.length +
        (i - 4 * (rgba.length / 4) -
          (rgba.length - 4 * (rgba.length / 4))) = i := by
      omega
    rw [this]

theorem write_rgba_tail_preserved_witness :
    ∃ out, write_rgba_image_frame 8 [9, 9, 9, 9, 7, 7, 7, 7]
        [1, 2, 3, 4, 5, 6] = some out ∧
      ∀ i, 4 * ([1, 2, 3, 4, 5, 6].length / 4) ≤ i →
        out.getD i 0 = [9, 9, 9, 9, 7, 7, 7, 7].getD i 0 :=
  write_rgba_tail_preserved 8 [9, 9, 9, 9, 7, 7, 7, 7] [1, 2, 3, 4, 5, 6]
    (by decide) (by decide)

/-! ## Output selection
(`OutputBinding`, `output_matches_monitor`, `AppState::select_output`,
src/wallpaper.rs lines 642-746) -/

/-- A bound output: registry global name plus lazily-learned metadata
(the Wayland proxy object is omitted; selection only reads these
fields). -/
structure OutputBinding where
  global_name : Nat
  name : Option Str
  description : Option Str
deriving DecidableEq

/-- Model of `output_matches_monitor` (src/wallpaper.rs lines 728-746):
one combined predicate per output — name equality (case-sensitive or
ASCII-case-insensitive), or description equality / substring
containment after ASCII lower-casing. -/
def output_matches_monitor (out : OutputBinding) (requested : Str) : Bool :=
  let requested := trim requested
  (match out.name with
   | some name => name == requested || eqIgnoreAsciiCase name requested
   | none => false) ||
  (match out.description with
   | some description =>
     let requestedLower := asciiLower requested
     let descLower := asciiLower description
     descLower == requestedLower || containsSub descLower requestedLower
   | none => false)

/-- Model of `AppState::select_output` (src/wallpaper.rs lines
680-718): with a requested monitor, return the first bound output (in
registry order) satisfying `output_matches_monitor`; without one,
return the first bound output.  `none` models the descriptive error
returns. -/
def select_output (requestedMonitor : Option Str)
    (outputs : List OutputBinding) : Option OutputBinding :=
  match requestedMonitor with
  | some requested =>
    outputs.find? (fun out => output_matches_monitor out requested)
  | none => outputs.head?

/-- A requested monitor name used by the C3 counterexample. -/
def reqDP1 : Str := ['D', 'P', '-', '1']

/-- An output whose description contains the requested name but whose
own name is still unknown. -/
def descOutput : OutputBinding :=
  { global_name := 1, name := none,
    description := some ['x', 'D', 'P', '-', '1'] }

/-- An output whose name equals the requested name case-sensitively. -/
def nameOutput : OutputBinding :=
  { global_name := 2, name := some reqDP1, description := none }

/-- C3 counterexample: with outputs `[descOutput, nameOutput]` and
requested name "DP-1", `select_output` returns the first output, which
matches only by description, even though the second output matches the
requested name case-sensitively — there is no tier preference across
outputs, only a first-match scan in binding order. -/
theorem select_output_no_tier_cex :
    select_output (some reqDP1) [descOutput, nameOutput] = some descOutput ∧
    descOutput.name = none ∧
    nameOutput.name = some reqDP1 := by
  refine ⟨by decide, by decide, by decide⟩

/-- C3 (amended): `select_output` with a requested name returns the
first output in binding order whose combined name-or-description
predicate `output_matches_monitor` holds; earlier outputs win
regardless of which criterion they match by. -/
theorem select_output_first_match (outputs : List OutputBinding)
    (requested : Str) (i : Nat) (h : i < outputs.length)
    (hmatch : output_matches_monitor (outputs.get ⟨i, h⟩) requested = true)
    (hbefore : ∀ j (hj : j < i),
      output_matches_monitor (outputs.get ⟨j, by omega⟩) requested = false) :
    select_output (some requested) outputs = some (outputs.get ⟨i, h⟩) := by
  induction outputs generalizing i with
  | nil => simp at h
  | cons a t ih =>
    cases i with
    | zero =>
      simp only [select_output]
      exact List.find?_cons_of_pos _ hmatch
    | succ i =>
      have ha : output_matches_monitor a requested = false :=
        hbefore 0 (by omega)
      have hit : i < t.length := by simpa using h
      have hrec := ih i hit hmatch (fun j hj => hbefore (j + 1) (by omega))
      simp only [select_output] at hrec ⊢
      rw [List.find?_cons_of_neg _ (by simp [ha]), hrec]
      rfl

theorem select_output_first_match_witness :
    select_output (some reqDP1) [descOutput, nameOutput] =
      some ([descOutput, nameOutput].get ⟨0, by decide⟩) :=
  select_output_first_match [descOutput, nameOutput] reqDP1 0 (by decide)
    (by decide) (fun j hj => absurd hj (by omega))

/-! ## Layer-surface geometry state
(`AppState::new`, src/wallpaper.rs lines 653-665, and the
`ZwlrLayerSurfaceV1` event handler, lines 857-887) -/

/-- The geometry-relevant fields of `AppState`. -/
structure AppStateGeom where
  width : Nat
  height : Nat
  configured : Bool
  exit : Bool
deriving DecidableEq

/-- Model of `AppState::new`: 1920x1080 before any configure event. -/
def appStateNew : AppStateGeom :=
  { width := 1920, height := 1080, configured := false, exit := false }

/-- The layer-surface events the dispatch handler reacts to. -/
inductive LayerSurfaceEvent where
  | configure (serial width height : Nat)
  | closed
  | other
deriving DecidableEq

/-- Model of the `Dispatch<ZwlrLayerSurfaceV1> for AppState` event
handler (src/wallpaper.rs lines 857-887): every configure event
acknowledges and overwrites each dimension with the event value when
it is nonzero, then marks the state configured; a closed event sets
the exit flag. -/
def handleLayerSurfaceEvent (s : AppStateGeom) :
    LayerSurfaceEvent → AppStateGeom
  | .configure _ w h =>
    { s with
      width := if 0 < w then w else s.width,
      height := if 0 < h then h else s.height,
      configured := true }
  | .closed => { s with exit := true }
  | .other => s

/-- C4 counterexample: geometry is not frozen after the first
configure — a second configure event with different nonzero
dimensions changes the stored width from 100 to 300. -/
theorem configure_not_frozen_cex :
    (handleLayerSurfaceEvent appStateNew
      (.configure 1 100 200)).configured = true ∧
    (handleLayerSurfaceEvent (handleLayerSurfaceEvent appStateNew
      (.configure 1 100 200)) (.configure 2 300 400)).width = 300 ∧
    (handleLayerSurfaceEvent appStateNew
      (.configure 1 100 200)).width = 100 ∧
    (300 : Nat) ≠ 100 := by
  refine ⟨rfl, rfl, rfl, by decide⟩

/-- C4 (amended): geometry starts at 1920x1080 and unconfigured; every
configure event — not only the first — overwrites width and height
with its nonzero values (zero components keep the previous value) and
marks the state configured; a closed event sets only the exit flag. -/
theorem layer_surface_geometry :
    appStateNew.width = 1920 ∧ appStateNew.height = 1080 ∧
    appStateNew.configured = false ∧
    (∀ s serial w h,
      (handleLayerSurfaceEvent s (.configure serial w h)).width =
        (if 0 < w then w else s.width) ∧
      (handleLayerSurfaceEvent s (.configure serial w h)).height =
        (if 0 < h then h else s.height) ∧
      (handleLayerSurfaceEvent s (.configure serial w h)).configured =
        true ∧
      (handleLayerSurfaceEvent s (.configure serial w h)).exit = s.exit) ∧
    (∀ s, (handleLayerSurfaceEvent s .closed).exit = true ∧
      (handleLayerSurfaceEvent s .closed).width = s.width ∧
      (handleLayerSurfaceEvent s .closed).height = s.height) :=
  ⟨rfl, rfl, rfl, fun _ _ _ _ => ⟨rfl, rfl, rfl, rfl⟩,
    fun _ => ⟨rfl, rfl, rfl⟩⟩

/-! ## Video fallback driver
(`play_video_loop`, src/wallpaper.rs lines 166-240) -/

/-- One pipeline attempt (`run_video_pipeline`): a function of the
incoming surface-closed flag, returning the attempt's result together
with the flag's value when the attempt returns (the attempt
dispatches Wayland events, so it can observe the Closed event). -/
abbrev PipelineAttempt (E : Type) := Bool → Except E Unit × Bool

/-- Model of the fallback loop of `play_video_loop` (src/wallpaper.rs
lines 212-239): try the ordered pipeline descriptors in turn; a clean
return ends the driver with success; a failure with the exit flag set
short-circuits with success; otherwise the error is recorded and the
next descriptor is tried; on exhaustion the last recorded error (or
the aggregate install-plugins error) is reported. -/
def play_video_loop {E : Type} (defaultErr : E) :
    List (PipelineAttempt E) → Bool → Option E → Except E Unit
  | [], _, lastError => .error (lastError.getD defaultErr)
  | attempt :: rest, exitFlag, lastError =>
    match attempt exitFlag with
    | (.ok _, _) => .ok ()
    | (.error err, exitAfter) =>
      if exitAfter then .ok ()
      else play_video_loop defaultErr rest exitAfter (some err)

/-- C5 helper: when every attempt fails from a clear exit flag without
ever setting it, the driver reports the last error, whatever error was
recorded before. -/
theorem play_video_loop_all_fail {E : Type} (defaultErr : E) :
    ∀ (attempts : List (PipelineAttempt E)) (errs : List E)
      (lastError : Option E) (hne : attempts ≠ [])
      (hlen : errs.length = attempts.length)
      (hall : ∀ i (h : i < attempts.length),
        attempts.get ⟨i, h⟩ false =
          (.error (errs.get ⟨i, by omega⟩), false))
      (lastE : E) (hlast : errs.getLast? = some lastE),
        play_video_loop defaultErr attempts false lastError =
          .error lastE := by
  intro attempts
  induction attempts with
  | nil => intro errs lastError hne; exact absurd rfl hne
  | cons a rest ih =>
    intro errs lastError hne hlen hall lastE hlast
    rcases errs with _ | ⟨e0, erest⟩
    · simp at hlen
    have ha := hall 0 (by simp)
    simp only [List.get] at ha
    rw [play_video_loop, ha]
    simp only [if_false, Bool.false_eq_true]
    cases rest with
    | nil =>
      have : erest = [] := by
        simp only [List.length_cons, List.length_nil] at hlen
        exact List.eq_nil_of_length_eq_zero (by omega)
      subst this
      simp only [List.getLast?_singleton, Option.some_inj] at hlast
      rw [play_video_loop]
      simp [hlast]
    | cons b rest2 =>
      have herest : erest ≠ [] := by
        intro hnil
        rw [hnil] at hlen
        simp at hlen
      have hrec := ih erest (some e0) (by simp) (by simpa using hlen)
        (fun i h => by
          have := hall (i + 1) (by simpa using Nat.succ_lt_succ h)
          simpa using this)
        lastE (by
          rcases erest with _ | ⟨e1, erest2⟩
          · exact absurd rfl herest
          · simpa using hlast)
      exact hrec

/-- C5 (confirmed): the fallback driver (i) ends successfully on any
attempt that returns cleanly, (ii) returns success immediately when an
attempt fails with the exit flag set, trying no later descriptor,
(iii) otherwise records the error and moves to the next descriptor,
and (iv) when all attempts fail with the flag never set, reports the
last attempt's error. -/
theorem play_video_loop_fallback {E : Type} (defaultErr : E) :
    (∀ (a : PipelineAttempt E) rest e lastError u e2, a e = (.ok u, e2) →
      play_video_loop defaultErr (a :: rest) e lastError = .ok ()) ∧
    (∀ (a : PipelineAttempt E) rest e lastError err, a e = (.error err, true) →
      play_video_loop defaultErr (a :: rest) e lastError = .ok ()) ∧
    (∀ (a : PipelineAttempt E) rest e lastError err,
      a e = (.error err, false) →
      play_video_loop defaultErr (a :: rest) e lastError =
        play_video_loop defaultErr rest false (some err)) ∧
    (∀ (attempts : List (PipelineAttempt E)) (errs : List E)
      (hne : attempts ≠ []) (hlen : errs.length = attempts.length)
      (hall : ∀ i (h : i < attempts.length),
        attempts.get ⟨i, h⟩ false =
          (.error (errs.get ⟨i, by omega⟩), false))
      (lastE : E) (hlast : errs.getLast? = some lastE),
        play_video_loop defaultErr attempts false none = .error lastE) := by
  refine ⟨?_, ?_, ?_, ?_⟩
  · intro a rest e lastError u e2 ha
    rw [play_video_loop, ha]
  · intro a rest e lastError err ha
    rw [play_video_loop, ha]
    simp
  · intro a rest e lastError err ha
    rw [play_video_loop, ha]
    simp
  · intro attempts errs hne hlen hall lastE hlast
    exact play_video_loop_all_fail defaultErr attempts errs none hne hlen
      hall lastE hlast

/-- First failing attempt of the C5 witness ladder. -/
def pipeAttempt1 : PipelineAttempt Nat := fun _ => (.error 10, false)

/-- Second failing attempt of the C5 witness ladder. -/
def pipeAttempt2 : PipelineAttempt Nat := fun _ => (.error 20, false)

theorem play_video_loop_fallback_witness :
    play_video_loop (0 : Nat) [pipeAttempt1, pipeAttempt2] false none =
      .error 20 := by
  refine (play_video_loop_fallback 0).2.2.2 [pipeAttempt1, pipeAttempt2]
    [10, 20] (by simp) (by simp) ?_ 20 (by decide)
  intro i h
  match i with
  | 0 => rfl
  | 1 => rfl
  | n + 2 =>
    exact absurd h (by simp only [List.length_cons, List.length_nil]; omega)

/-! ## Image fitter
(`render_image_fit`, src/wallpaper.rs lines 249-278)

Images are dimensions plus a total pixel function; the external image
crate's resampling kernel (Lanczos-3) is abstracted as an explicit
`Resampler` parameter, since no claim depends on the kernel weights.
The crate computes scale factors in `f64`; the models below use exact
rational arithmetic, which agrees with the `f64` computation except
when a quotient lies within floating-point error of a half-integer
(no claim or witness input is in that regime).  `f64::round` rounds
ties away from zero, which on nonnegative values is round-half-up. -/

/-- An RGBA pixel as four byte values `(R, G, B, A)`. -/
abbrev Pixel := Nat × Nat × Nat × Nat

/-- A decoded raster image: dimensions plus a total pixel function
(values outside the bounds are never read by the fitter). -/
structure Image where
  width : Nat
  height : Nat
  pix : Nat → Nat → Pixel

/-- A resampling filter: given the source image and the target
dimensions, produce the pixel at each target coordinate.  The crate's
Lanczos-3 kernel is one particular resampler; the fitter theorems hold
for every resampler. -/
abbrev Resampler := Image → Nat → Nat → Nat → Nat → Pixel

/-- Model of `image.resize_exact(w, h, filter).to_rgba8()`: an image of exactly
the requested dimensions whose content is produced by the filter. -/
def resize_exact (sample : Resampler) (img : Image) (w h : Nat) : Image :=
  { width := w, height := h, pix := fun x y => sample img w h x y }

/-- Round-to-nearest of `a / b` with ties away from zero, on
nonnegative integers: the exact-rational model of `f64::round` applied
to a quotient of naturals. -/
def roundHalfUpDiv (a b : Nat) : Nat := (2 * a + b) / (2 * b)

/-- Dimension computation of aspect-preserving `DynamicImage::resize`
(the crate's `resize_dimensions` with `fill = false`): scale both
dimensions by `ratio = min(nw / w, nh / h)` — the first branch is
`ratio = nw / w`, the second `ratio = nh / h` — rounding each product
to nearest and forcing a minimum of 1. -/
def resize_dimensions (w h nw nh : Nat) : Nat × Nat :=
  if nw * h ≤ nh * w then
    (max (roundHalfUpDiv (w * nw) w) 1, max (roundHalfUpDiv (h * nw) w) 1)
  else
    (max (roundHalfUpDiv (w * nh) h) 1, max (roundHalfUpDiv (h * nh) h) 1)

/-- Model of `DynamicImage::resize`: aspect-preserving resize to fit within the
requested box. -/
def resize (sample : Resampler) (img : Image) (nw nh : Nat) : Image :=
  resize_exact sample img (resize_dimensions img.width img.height nw nh).1
    (resize_dimensions img.width img.height nw nh).2

/-- Model of `RgbaImage::new(w, h)`: a canvas of transparent black
`(0, 0, 0, 0)` pixels. -/
def rgbaImageNew (w h : Nat) : Image :=
  { width := w, height := h, pix := fun _ _ => (0, 0, 0, 0) }

/-- The `Rgba::blend` alpha-over operator of the image crate, modelled
over exact rationals (the crate computes in `f32` and truncates back
to bytes).  Only applied inside the overlay region; no theorem depends
on its values. -/
def blend (bot top : Pixel) : Pixel :=
  let baq : ℚ := bot.2.2.2 / 255
  let faq : ℚ := top.2.2.2 / 255
  let alphaFinal : ℚ := baq + faq - baq * faq
  if alphaFinal = 0 then bot
  else
    let ch : Nat → Nat → Nat := fun b f =>
      ⌊(((f : ℚ) / 255) * faq + ((b : ℚ) / 255) * baq * (1 - faq)) /
          alphaFinal * 255⌋₊
    (ch bot.1 top.1, ch bot.2.1 top.2.1, ch bot.2.2.1 top.2.2.1,
      ⌊alphaFinal * 255⌋₊)

/-- Model of `image::imageops::overlay(bottom, top, x, y)` with nonnegative
offsets: blend `top` over `bottom` on the clipped region
`[x, x + min(top_w, bottom_w - x)) × [y, y + min(top_h, bottom_h - y))`;
pixels outside the region are untouched. -/
def overlay (bottom top : Image) (ox oy : Nat) : Image :=
  { width := bottom.width, height := bottom.height,
    pix := fun px py =>
      if ox ≤ px ∧ px < ox + min top.width (bottom.width - ox) ∧
          oy ≤ py ∧ py < oy + min top.height (bottom.height - oy) then
        blend (bottom.pix px py) (top.pix (px - ox) (py - oy))
      else bottom.pix px py }

/-- Model of `image::imageops::crop_imm(img, x, y, w, h).to_image()`: the crate
clamps the window to the image bounds, then reads through the
offset. -/
def crop_imm (img : Image) (x y w h : Nat) : Image :=
  { width := min w (img.width - min x img.width),
    height := min h (img.height - min y img.height),
    pix := fun px py =>
      img.pix (min x img.width + px) (min y img.height + py) }

/-- The centring offset of the Contain branch:
`((out as i64 - resized as i64) / 2).max(0) as u32`, with `i64`
division truncating toward zero. -/
def containOffset (out rsz : Nat) : Nat :=
  (max (((out : Int) - (rsz : Int)).tdiv 2) 0).toNat

/-- The intermediate dimensions of the Cover branch
(src/wallpaper.rs lines 266-271):
`scale = max(out_w / src_w, out_h / src_h)`,
`rw = round(src_w * scale).max(out_w)`,
`rh = round(src_h * scale).max(out_h)` — the first branch realizes
`scale = out_w / src_w`, the second `scale = out_h / src_h`. -/
def cover_resize_dims (sw sh ow oh : Nat) : Nat × Nat :=
  if oh * sw ≤ ow * sh then
    (max (roundHalfUpDiv (sw * ow) sw) ow, max (roundHalfUpDiv (sh * ow) sw) oh)
  else
    (max (roundHalfUpDiv (sw * oh) sh) ow, max (roundHalfUpDiv (sh * oh) sh) oh)

/-- The fit modes of `config::FitMode`. -/
inductive FitMode where
  | Stretch
  | Fill
  | Cover
  | Fit
  | Contain
deriving DecidableEq

/-- Model of `render_image_fit` (src/wallpaper.rs lines 249-278). -/
def render_image_fit (sample : Resampler) (image : Image)
    (out_w out_h : Nat) : FitMode → Image
  | .Stretch => resize_exact sample image out_w out_h
  | .Fit | .Contain =>
    overlay (rgbaImageNew out_w out_h) (resize sample image out_w out_h)
      (containOffset out_w (resize sample image out_w out_h).width)
      (containOffset out_h (resize sample image out_w out_h).height)
  | .Fill | .Cover =>
    crop_imm
      (resize_exact sample image
        (cover_resize_dims image.width image.height out_w out_h).1
        (cover_resize_dims image.width image.height out_w out_h).2)
      (((cover_resize_dims image.width image.height out_w out_h).1 - out_w) / 2)
      (((cover_resize_dims image.width image.height out_w out_h).2 - out_h) / 2)
      out_w out_h

/-- The intermediate Cover dimensions as the spec words them
(refinement comparison only): the CEILING of the scaled size, clamped
to the output dimensions. -/
def cover_resize_dims_ceilSpec (sw sh ow oh : Nat) : Nat × Nat :=
  if oh * sw ≤ ow * sh then
    (max ((sw * ow + sw - 1) / sw) ow, max ((sh * ow + sw - 1) / sw) oh)
  else
    (max ((sw * oh + sh - 1) / sh) ow, max ((sh * oh + sh - 1) / sh) oh)

/-- A 1x1 solid red source image. -/
def oneByOneRed : Image := { width := 1, height := 1, pix := fun _ _ => (255, 0, 0, 255) }

/-- A constant solid-red resampler (one concrete filter). -/
def constRedSampler : Resampler := fun _ _ _ _ _ => (255, 0, 0, 255)

/-- A 4x5 solid red source image. -/
def img4x5 : Image := { width := 4, height := 5, pix := fun _ _ => (255, 0, 0, 255) }

/-- A resampler that records the requested target dimensions in each
pixel, making the intermediate resize size observable. -/
def dimProbeSampler : Resampler := fun _ w h _ _ => (w, h, 0, 0)

/-! ### Image fitter lemmas -/

theorem roundHalfUpDiv_le (a b c : Nat) (hb : 0 < b) (h : a ≤ c * b) :
    roundHalfUpDiv a b ≤ c := by
  unfold roundHalfUpDiv
  rw [← Nat.lt_succ_iff, Nat.div_lt_iff_lt_mul (by omega)]
  nlinarith [h, hb]

theorem roundHalfUpDiv_eq_floor (a b : Nat) (hb : 0 < b) :
    roundHalfUpDiv a b = ⌊(a : ℚ) / b + 1 / 2⌋₊ := by
  unfold roundHalfUpDiv
  have h1 : ((a : ℚ) / b + 1 / 2) =
      ((2 * a + b : ℕ) : ℚ) / ((2 * b : ℕ) : ℚ) := by
    have hb' : (b : ℚ) ≠ 0 := by positivity
    push_cast
    field_simp
    ring
  rw [h1, Nat.floor_div_nat, Nat.floor_natCast]

theorem roundHalfUpDiv_ratio (s c1 c2 : Nat) (hc2 : 0 < c2) :
    roundHalfUpDiv (s * c1) c2 =
      ⌊(s : ℚ) * ((c1 : ℚ) / (c2 : ℚ)) + 1 / 2⌋₊ := by
  rw [roundHalfUpDiv_eq_floor _ _ hc2]
  congr 1
  push_cast
  ring

theorem containOffset_eq (out rsz : Nat) (h : rsz ≤ out) :
    containOffset out rsz = (out - rsz) / 2 := by
  unfold containOffset
  have h1 : ((out : Int) - (rsz : Int)) = ((out - rsz : Nat) : Int) := by
    omega
  have h3 : (2 : Int) = ((2 : Nat) : Int) := rfl
  rw [h1, h3, ← Int.ofNat_tdiv]
  rw [max_eq_left (by positivity)]
  exact Int.toNat_natCast _

/-- The aspect-preserving resize never exceeds the requested box. -/
theorem resize_dimensions_le (w h nw nh : Nat) (hw : 0 < w) (hh : 0 < h)
    (hnw : 0 < nw) (hnh : 0 < nh) :
    (resize_dimensions w h nw nh).1 ≤ nw ∧
    (resize_dimensions w h nw nh).2 ≤ nh := by
  unfold resize_dimensions
  split_ifs with hcond
  · refine ⟨Nat.max_le.mpr ⟨?_, by omega⟩, Nat.max_le.mpr ⟨?_, by omega⟩⟩
    · exact roundHalfUpDiv_le _ _ _ hw (Nat.mul_comm w nw).le
    · exact roundHalfUpDiv_le _ _ _ hw
        (by rw [Nat.mul_comm h nw]; exact hcond)
  · have hlt : nh * w < nw * h := Nat.lt_of_not_le hcond
    refine ⟨Nat.max_le.mpr ⟨?_, by omega⟩, Nat.max_le.mpr ⟨?_, by omega⟩⟩
    · exact roundHalfUpDiv_le _ _ _ hh
        (by rw [Nat.mul_comm w nh]; exact hlt.le)
    · exact roundHalfUpDiv_le _ _ _ hh (Nat.mul_comm h nh).le

/-- The Cover intermediate dimensions are clamped to the output. -/
theorem cover_resize_dims_ge (sw sh ow oh : Nat) :
    ow ≤ (cover_resize_dims sw sh ow oh).1 ∧
    oh ≤ (cover_resize_dims sw sh ow oh).2 := by
  unfold cover_resize_dims
  split_ifs <;> exact ⟨le_max_right _ _, le_max_right _ _⟩

/-- C1 counterexample: a 1x1 source in Contain mode on a 2x4 output —
the border pixel at (0, 0) of the RGBA output of `render_image_fit`
is transparent black `(0, 0, 0, 0)`: its alpha byte is 0, not 255
(alpha is only forced to 255 later, in the pool write). -/
theorem contain_border_alpha_cex :
    (render_image_fit constRedSampler oneByOneRed 2 4
      FitMode.Contain).pix 0 0 = (0, 0, 0, 0) ∧
    ((render_image_fit constRedSampler oneByOneRed 2 4
      FitMode.Contain).pix 0 0).2.2.2 ≠ 255 := by
  refine ⟨by decide, by decide⟩

/-- C1 (amended): for every resampling filter, fit mode and source
image with positive dimensions, `render_image_fit` returns an image of
exactly `out_w × out_h` pixels; in Contain mode every background pixel
outside the centred placed image is transparent black `(0, 0, 0, 0)`
in the RGBA output (alpha is forced to 255 only when the frame is
written into the XRGB8888 pool). -/
theorem render_image_fit_geometry (sample : Resampler) (img : Image)
    (out_w out_h : Nat) (hw : 0 < img.width) (hh : 0 < img.height)
    (how : 0 < out_w) (hoh : 0 < out_h) :
    (∀ fit, (render_image_fit sample img out_w out_h fit).width = out_w ∧
      (render_image_fit sample img out_w out_h fit).height = out_h) ∧
    (∀ px py, px < out_w → py < out_h →
      (px < containOffset out_w
          (resize_dimensions img.width img.height out_w out_h).1 ∨
       containOffset out_w
          (resize_dimensions img.width img.height out_w out_h).1 +
         (resize_dimensions img.width img.height out_w out_h).1 ≤ px ∨
       py < containOffset out_h
          (resize_dimensions img.width img.height out_w out_h).2 ∨
       containOffset out_h
          (resize_dimensions img.width img.height out_w out_h).2 +
         (resize_dimensions img.width img.height out_w out_h).2 ≤ py) →
      (render_image_fit sample img out_w out_h FitMode.Contain).pix px py =
        (0, 0, 0, 0)) := by
  obtain ⟨hle1, hle2⟩ :=
    resize_dimensions_le img.width img.height out_w out_h hw hh how hoh
  obtain ⟨hge1, hge2⟩ :=
    cover_resize_dims_ge img.width img.height out_w out_h
  have hx := containOffset_eq out_w
    (resize_dimensions img.width img.height out_w out_h).1 hle1
  have hy := containOffset_eq out_h
    (resize_dimensions img.width img.height out_w out_h).2 hle2
  constructor
  · intro fit
    cases fit with
    | Stretch => exact ⟨rfl, rfl⟩
    | Fit => exact ⟨rfl, rfl⟩
    | Contain => exact ⟨rfl, rfl⟩
    | Fill =>
      constructor
      · simp only [render_image_fit, crop_imm, resize_exact]
        omega
      · simp only [render_image_fit, crop_imm, resize_exact]
        omega
    | Cover =>
      constructor
      · simp only [render_image_fit, crop_imm, resize_exact]
        omega
      · simp only [render_image_fit, crop_imm, resize_exact]
        omega
  · intro px py hpx hpy hout
    rw [hx, hy] at hout
    simp only [render_image_fit, resize, resize_exact, overlay,
      rgbaImageNew]
    rw [if_neg]
    rintro ⟨h1, h2, h3, h4⟩
    rw [hx] at h1 h2
    rw [hy] at h3 h4
    rcases hout with h | h | h | h <;> omega

theorem render_image_fit_geometry_witness :
    (render_image_fit constRedSampler oneByOneRed 2 4
      FitMode.Stretch).width = 2 ∧
    (render_image_fit constRedSampler oneByOneRed 2 4
      FitMode.Contain).pix 0 0 = (0, 0, 0, 0) := by
  refine ⟨((render_image_fit_geometry constRedSampler oneByOneRed 2 4
    (by decide) (by decide) (by decide) (by decide)).1 FitMode.Stretch).1,
    (render_image_fit_geometry constRedSampler oneByOneRed 2 4
    (by decide) (by decide) (by decide) (by decide)).2 0 0
    (by decide) (by decide) (Or.inr (Or.inr (Or.inl (by decide))))⟩

/-- C2 counterexample: for a 4x5 source covered onto a 1x1 output,
the code resizes to intermediate dimensions (1, 1) — the rounding of
the scaled size — while the claim's ceiling formula gives (1, 2); the
dimension-recording resampler makes the difference observable in the
rendered pixel. -/
theorem cover_round_not_ceil_cex :
    cover_resize_dims 4 5 1 1 = (1, 1) ∧
    cover_resize_dims_ceilSpec 4 5 1 1 = (1, 2) ∧
    (render_image_fit dimProbeSampler img4x5 1 1 FitMode.Cover).pix 0 0 =
      (1, 1, 0, 0) ∧
    ((1, 1) : Nat × Nat) ≠ (1, 2) := by
  refine ⟨by decide, by decide, by decide, by decide⟩

/-- C2 (amended): in Cover (and Fill) mode, `render_image_fit` resizes
exactly to the intermediate dimensions
`(round(src_w * scale) clamped ≥ out_w, round(src_h * scale) clamped ≥ out_h)`
with `scale = max(out_w / src_w, out_h / src_h)` and round-to-nearest
(ties away from zero) — not the ceiling — and then crops a centred
`out_w × out_h` window at offsets `((rw - out_w) / 2, (rh - out_h) / 2)`. -/
theorem render_cover_amended (sample : Resampler) (img : Image)
    (out_w out_h : Nat) (hw : 0 < img.width) (hh : 0 < img.height) :
    render_image_fit sample img out_w out_h FitMode.Cover =
      crop_imm
        (resize_exact sample img
          (cover_resize_dims img.width img.height out_w out_h).1
          (cover_resize_dims img.width img.height out_w out_h).2)
        (((cover_resize_dims img.width img.height out_w out_h).1 - out_w) / 2)
        (((cover_resize_dims img.width img.height out_w out_h).2 - out_h) / 2)
        out_w out_h ∧
    (cover_resize_dims img.width img.height out_w out_h).1 =
      max (⌊(img.width : ℚ) *
        max ((out_w : ℚ) / (img.width : ℚ)) ((out_h : ℚ) / (img.height : ℚ)) +
        1 / 2⌋₊) out_w ∧
    (cover_resize_dims img.width img.height out_w out_h).2 =
      max (⌊(img.height : ℚ) *
        max ((out_w : ℚ) / (img.width : ℚ)) ((out_h : ℚ) / (img.height : ℚ)) +
        1 / 2⌋₊) out_h ∧
    out_w ≤ (cover_resize_dims img.width img.height out_w out_h).1 ∧
    out_h ≤ (cover_resize_dims img.width img.height out_w out_h).2 := by
  have hwq : (0 : ℚ) < (img.width : ℚ) := by exact_mod_cast hw
  have hhq : (0 : ℚ) < (img.height : ℚ) := by exact_mod_cast hh
  refine ⟨rfl, ?_, ?_, (cover_resize_dims_ge _ _ _ _).1,
    (cover_resize_dims_ge _ _ _ _).2⟩
  · unfold cover_resize_dims
    split_ifs with hcond
    · have hq : max ((out_w : ℚ) / (img.width : ℚ))
          ((out_h : ℚ) / (img.height : ℚ)) =
          (out_w : ℚ) / (img.width : ℚ) := by
        rw [max_eq_left]
        rw [div_le_div_iff hhq hwq]
        exact_mod_cast hcond
      rw [hq]
      show max (roundHalfUpDiv (img.width * out_w) img.width) out_w =
        max (⌊(img.width : ℚ) * ((out_w : ℚ) / (img.width : ℚ)) + 1 / 2⌋₊)
          out_w
      rw [roundHalfUpDiv_ratio img.width out_w img.width hw]
    · have hlt : out_w * img.height < out_h * img.width := by
        omega
      have hq : max ((out_w : ℚ) / (img.width : ℚ))
          ((out_h : ℚ) / (img.height : ℚ)) =
          (out_h : ℚ) / (img.height : ℚ) := by
        rw [max_eq_right]
        rw [div_le_div_iff hwq hhq]
        exact_mod_cast hlt.le
      rw [hq]
      show max (roundHalfUpDiv (img.width * out_h) img.height) out_w =
        max (⌊(img.width : ℚ) * ((out_h : ℚ) / (img.height : ℚ)) + 1 / 2⌋₊)
          out_w
      rw [roundHalfUpDiv_ratio img.width out_h img.height hh]
  · unfold cover_resize_dims
    split_ifs with hcond
    · have hq : max ((out_w : ℚ) / (img.width : ℚ))
          ((out_h : ℚ) / (img.height : ℚ)) =
          (out_w : ℚ) / (img.width : ℚ) := by
        rw [max_eq_left]
        rw [div_le_div_iff hhq hwq]
        exact_mod_cast hcond
      rw [hq]
      show max (roundHalfUpDiv (img.height * out_w) img.width) out_h =
        max (⌊(img.height : ℚ) * ((out_w : ℚ) / (img.width : ℚ)) + 1 / 2⌋₊)
          out_h
      rw [roundHalfUpDiv_ratio img.height out_w img.width hw]
    · have hlt : out_w * img.height < out_h * img.width := by
        omega
      have hq : max ((out_w : ℚ) / (img.width : ℚ))
          ((out_h : ℚ) / (img.height : ℚ)) =
          (out_h : ℚ) / (img.height : ℚ) := by
        rw [max_eq_right]
        rw [div_le_div_iff hwq hhq]
        exact_mod_cast hlt.le
      rw [hq]
      show max (roundHalfUpDiv (img.height * out_h) img.height) out_h =
        max (⌊(img.height : ℚ) * ((out_h : ℚ) / (img.height : ℚ)) + 1 / 2⌋₊)
          out_h
      rw [roundHalfUpDiv_ratio img.height out_h img.height hh]

theorem render_cover_amended_witness :
    1 ≤ (cover_resize_dims img4x5.width img4x5.height 1 1).1 :=
  (render_cover_amended dimProbeSampler img4x5 1 1 (by decide)
    (by decide)).2.2.2.1

end Papdieo
